import Mathlib

/-!
Verification of the redis-graphite publisher (src/redis-graphite.py).

The script's `main` is a triple-nested loop: an outer reconnect loop on the
carbon (sink) socket, an inner tick loop, and per-target metric loops.  We
embed it shallowly: strings are Lean `String`s, the store and the wall clock
are oracles passed in as functions, machine integers are `Int`/`Nat`
(Python ints are unbounded, so no modular wrap is needed), and Python
exceptions are `Option`/`Except` failures.  All definitions use structural
recursion (fuel where the source loops forever) so concrete runs evaluate
inside the kernel.
-/

namespace RG

/-! ### Decimal rendering and parsing of integers

Models the decimal string formatting Python applies to an `int` value
and `int(s)` on an optionally signed decimal string. -/

/-- The character for a single decimal digit d, 0 ≤ d ≤ 9. -/
def digitChar (d : Nat) : Char := Char.ofNat (48 + d)

/-- Decimal digits of `n`, most significant first; `fuel`-bounded structural
recursion (any `fuel > n` is enough since the digit count of `n` is at most
`n + 1`). -/
def natDigitsAux : Nat → Nat → List Char
  | 0, _ => []
  | fuel + 1, n =>
    if n < 10 then [digitChar n]
    else natDigitsAux fuel (n / 10) ++ [digitChar (n % 10)]

/-- Decimal digit string of a natural number, as Python renders an `int`. -/
def natStr (n : Nat) : String := ⟨natDigitsAux (n + 1) n⟩

/-- Decimal rendering of an integer, as Python's `str`/`format` of an `int`. -/
def intStr (v : Int) : String :=
  if v < 0 then "-" ++ natStr v.natAbs else natStr v.natAbs

/-- Numeric value of a decimal digit character, if it is one. -/
def digitVal (c : Char) : Option Nat :=
  if c.isDigit then some (c.toNat - 48) else none

/-- Accumulating decimal parser over a list of characters: fails on the
first non-digit. -/
def parseNatAux : List Char → Nat → Option Nat
  | [], acc => some acc
  | c :: cs, acc =>
    match digitVal c with
    | some d => parseNatAux cs (10 * acc + d)
    | none => none

/-- Value of a (known-good) digit list, for stating parser lemmas. -/
def natOfDigits (cs : List Char) : Nat :=
  cs.foldl (fun a c => 10 * a + (c.toNat - 48)) 0

/-- Models Python's `int(s)` on an optionally `-`-signed decimal string
(the script feeds it raw redis INFO values).  Whitespace stripping and a
leading `+`, which CPython also accepts, are not modelled. `none` models
the `ValueError` Python raises. -/
def pyInt (s : String) : Option Int :=
  match s.toList with
  | [] => none
  | c :: cs =>
    if c = '-' then
      match cs with
      | [] => none
      | _ => (parseNatAux cs 0).map fun m => -(m : Int)
    else (parseNatAux (c :: cs) 0).map fun m => (m : Int)

/-! ### The carbon line protocol (source line 116 and 131)

The source builds `cmd` as path, value and timestamp separated by
single spaces and terminated by a newline. -/

/-- One carbon plaintext line: `<path> <value> <timestamp>\n`
(source lines 116 and 131). -/
def encodeLine (path : String) (v : Int) (ts : Nat) : String :=
  path ++ " " ++ intStr v ++ " " ++ natStr ts ++ "\n"

/-- Splitting a character list on single spaces, the parse the spec's
round-trip property speaks about (like Python's `s.split(" ")`). -/
def splitSpaces : List Char → List (List Char)
  | [] => [[]]
  | c :: cs =>
    if c = ' ' then [] :: splitSpaces cs
    else (c :: (splitSpaces cs).headI) :: (splitSpaces cs).tail

/-- `splitSpaces` on a whole string, fields as strings. -/
def splitSpacesStr (s : String) : List String :=
  (splitSpaces s.toList).map fun cs => ⟨cs⟩

/-! #### Lemmas about rendering/parsing -/

theorem natDigitsAux_ne_nil (fuel n : Nat) (h : n < fuel) :
    natDigitsAux fuel n ≠ [] := by
  cases fuel with
  | zero => omega
  | succ f =>
    unfold natDigitsAux
    split
    · simp
    · simp

theorem mem_natDigitsAux_isDigit (fuel : Nat) :
    ∀ n c, c ∈ natDigitsAux fuel n → c.isDigit = true := by
  induction fuel with
  | zero => intro n c h; simp [natDigitsAux] at h
  | succ f ih =>
    intro n c h
    unfold natDigitsAux at h
    split at h
    · rename_i hn
      simp at h
      subst h
      interval_cases n <;> decide
    · rename_i hn
      rw [List.mem_append] at h
      rcases h with h | h
      · exact ih _ _ h
      · simp at h
        subst h
        have : n % 10 < 10 := Nat.mod_lt _ (by omega)
        interval_cases hm : (n % 10) <;> decide

theorem digitVal_digitChar (d : Nat) (h : d < 10) :
    digitVal (digitChar d) = some d := by
  interval_cases d <;> decide

theorem parseNatAux_append_single (xs : List Char) (c : Char) :
    ∀ acc, parseNatAux (xs ++ [c]) acc =
      match parseNatAux xs acc with
      | some m => (digitVal c).map fun d => 10 * m + d
      | none => none := by
  induction xs with
  | nil =>
    intro acc
    simp only [List.nil_append, parseNatAux]
    cases h : digitVal c <;> simp [parseNatAux, h]
  | cons x xs ih =>
    intro acc
    simp only [List.cons_append, parseNatAux]
    cases h : digitVal x <;> simp [h, ih]

theorem parseNatAux_natDigitsAux (fuel : Nat) :
    ∀ n acc, n < fuel →
      parseNatAux (natDigitsAux fuel n) acc =
        some (acc * 10 ^ (natDigitsAux fuel n).length + n) := by
  induction fuel with
  | zero => intro n acc h; omega
  | succ f ih =>
    intro n acc h
    unfold natDigitsAux
    split
    · rename_i hn
      simp [parseNatAux, digitVal_digitChar n hn]
      omega
    · rename_i hn
      have h1 : n / 10 < n := Nat.div_lt_self (by omega) (by omega)
      have hdiv : n / 10 < f := by omega
      rw [parseNatAux_append_single, ih (n / 10) acc hdiv,
        digitVal_digitChar (n % 10) (Nat.mod_lt _ (by omega))]
      have hmod : 10 * (n / 10) + n % 10 = n := Nat.div_add_mod n 10
      simp only [Option.map_some', List.length_append, List.length_cons,
        List.length_nil, Option.some.injEq]
      generalize (natDigitsAux f (n / 10)).length = L
      rw [pow_succ]
      conv_rhs => rw [← hmod]
      ring

theorem parseNatAux_natStr (n : Nat) :
    parseNatAux (natStr n).toList 0 = some n := by
  have := parseNatAux_natDigitsAux (n + 1) n 0 (Nat.lt_succ_self n)
  simpa [natStr] using this

/-- Parsing the decimal rendering of an integer recovers it: the value
round-trip of the line protocol. -/
theorem pyInt_intStr (v : Int) : pyInt (intStr v) = some v := by
  by_cases hv : v < 0
  · have habs : 1 ≤ v.natAbs := by omega
    unfold intStr
    rw [if_pos hv]
    have hdig := parseNatAux_natStr v.natAbs
    unfold pyInt
    have hlist : ("-" ++ natStr v.natAbs).toList = '-' :: (natStr v.natAbs).toList := by
      simp [String.toList]
    rw [hlist]
    have hne : (natStr v.natAbs).toList ≠ [] := by
      simpa [natStr, String.toList] using
        natDigitsAux_ne_nil (v.natAbs + 1) v.natAbs (Nat.lt_succ_self _)
    simp only [if_pos rfl]
    cases hcs : (natStr v.natAbs).toList with
    | nil => exact absurd hcs hne
    | cons c cs =>
      rw [hcs] at hdig
      simp [hdig]
      rw [abs_of_neg hv, neg_neg]
  · unfold intStr
    rw [if_neg hv]
    have hdig := parseNatAux_natStr v.natAbs
    unfold pyInt
    cases hcs : (natStr v.natAbs).toList with
    | nil =>
      exact absurd hcs (by
        simpa [natStr, String.toList] using
          natDigitsAux_ne_nil (v.natAbs + 1) v.natAbs (Nat.lt_succ_self _))
    | cons c cs =>
      rw [hcs] at hdig
      have hc : c.isDigit = true := by
        have : c ∈ natDigitsAux (v.natAbs + 1) v.natAbs := by
          have : c ∈ (natStr v.natAbs).toList := by rw [hcs]; exact List.mem_cons_self _ _
          simpa [natStr, String.toList] using this
        exact mem_natDigitsAux_isDigit _ _ _ this
      have hcne : ¬ (c = '-') := by
        intro hEq; subst hEq; simp [Char.isDigit] at hc
      simp [hcne, hdig, abs_of_nonneg (not_lt.mp hv)]

theorem mem_intStr_digit_or_minus (v : Int) (c : Char)
    (h : c ∈ (intStr v).toList) : c.isDigit = true ∨ c = '-' := by
  unfold intStr at h
  split at h
  · have hmem : c ∈ ('-' :: (natStr v.natAbs).toList) := by
      simpa [String.toList] using h
    rcases List.mem_cons.mp hmem with h1 | h1
    · right; exact h1
    · left
      exact mem_natDigitsAux_isDigit _ _ _ (by simpa [natStr, String.toList] using h1)
  · left
    exact mem_natDigitsAux_isDigit _ _ _ (by simpa [natStr, String.toList] using h)

theorem no_space_intStr (v : Int) : ' ' ∉ (intStr v).toList := by
  intro h
  rcases mem_intStr_digit_or_minus v ' ' h with h | h <;> simp at h

theorem no_dot_intStr (v : Int) : '.' ∉ (intStr v).toList := by
  intro h
  rcases mem_intStr_digit_or_minus v '.' h with h | h <;> simp at h

theorem no_space_natStr (n : Nat) : ' ' ∉ (natStr n).toList := by
  intro h
  have : Char.isDigit ' ' = true :=
    mem_natDigitsAux_isDigit _ _ _ (by simpa [natStr, String.toList] using h)
  simp at this

theorem splitSpaces_ne_nil (cs : List Char) : splitSpaces cs ≠ [] := by
  cases cs with
  | nil => simp [splitSpaces]
  | cons c cs =>
    unfold splitSpaces
    split <;> simp

theorem splitSpaces_append_space (a b : List Char) (ha : ' ' ∉ a) :
    splitSpaces (a ++ ' ' :: b) = a :: splitSpaces b := by
  induction a with
  | nil => simp [splitSpaces]
  | cons c a ih =>
    have hc : ¬ (c = ' ') := fun h => ha (h ▸ List.mem_cons_self c a)
    have ha' : ' ' ∉ a := fun h => ha (List.mem_cons_of_mem c h)
    simp only [List.cons_append, splitSpaces, if_neg hc, List.append_eq]
    rw [ih ha']
    simp

theorem splitSpaces_no_space (a : List Char) (ha : ' ' ∉ a) :
    splitSpaces a = [a] := by
  induction a with
  | nil => simp [splitSpaces]
  | cons c a ih =>
    have hc : ¬ (c = ' ') := fun h => ha (h ▸ List.mem_cons_self c a)
    have ha' : ' ' ∉ a := fun h => ha (List.mem_cons_of_mem c h)
    simp only [splitSpaces, if_neg hc, ih ha']
    simp

theorem string_append_toList (s t : String) :
    (s ++ t).toList = s.toList ++ t.toList := by
  cases s; cases t; rfl

theorem encodeLine_toList (path : String) (v : Int) (ts : Nat) :
    (encodeLine path v ts).toList =
      path.toList ++ ' ' :: ((intStr v).toList ++ ' ' :: ((natStr ts).toList ++ ['\n'])) := by
  unfold encodeLine
  simp only [string_append_toList]
  simp [String.toList]

/-! ### Python float model for the scaled-ratio coercion (source line 44)

`('mem_fragmentation_ratio', lambda x: int(float(x) * 100))`.  Python
floats are IEEE-754 binary64; we model them exactly: a nonnegative value
is an exact fraction of naturals (sign tracked separately), and each
operation result is rounded to the nearest representable `m * 2^(e-52)`
with ties to even.  The model covers the normal range, where all of the
script's ratio values live; sub-normal underflow and overflow are outside
the modelled range.  Fractions rather than `ℚ` keep every step a plain
`Nat` computation (no gcd normalisation), so concrete instances evaluate
in the kernel. -/

/-- A nonnegative exact value `num / den` (`den ≠ 0` at every use site).
Fractions are not kept reduced; only order and rounding are ever used, so
reduction never matters. -/
structure Frac where
  num : Nat
  den : Nat
deriving DecidableEq

/-- Number of binary digits of `n` (`0` for `0`); fuel-bounded structural
recursion, and fuel `n` always suffices. -/
def bitlenAux : Nat → Nat → Nat
  | 0, _ => 0
  | fuel + 1, n => if n = 0 then 0 else bitlenAux fuel (n / 2) + 1

/-- Binary digit count of a natural number. -/
def bitlen (n : Nat) : Nat := bitlenAux n n

/-- Is `2 ^ e ≤ x`, for an integer exponent `e`? -/
def fracLePow2 (e : Int) (x : Frac) : Bool :=
  if 0 ≤ e then x.den * 2 ^ e.toNat ≤ x.num else x.den ≤ x.num * 2 ^ (-e).toNat

/-- Binade exponent of a positive fraction: the `e` with
`2^e ≤ x < 2^(e+1)` (meaningful only for `x > 0`). -/
def fracExp (x : Frac) : Int :=
  let e0 : Int := (bitlen x.num : Int) - (bitlen x.den : Int)
  if fracLePow2 e0 x then e0 else e0 - 1

/-- Round `N / D` to the nearest natural number, ties to even. -/
def rneNat (N D : Nat) : Nat :=
  let f := N / D
  let r := N % D
  if 2 * r < D then f
  else if D < 2 * r then f + 1
  else if f % 2 = 0 then f else f + 1

/-- Multiply a fraction by `2 ^ k` for an integer `k`. -/
def fracScale (x : Frac) (k : Int) : Frac :=
  if 0 ≤ k then ⟨x.num * 2 ^ k.toNat, x.den⟩ else ⟨x.num, x.den * 2 ^ (-k).toNat⟩

/-- Round a nonnegative fraction to the nearest binary64 value, exactly
(normal range; `0` maps to `0`). -/
def f64roundPos (x : Frac) : Frac :=
  let e := fracExp x
  let s := fracScale x (52 - e)
  fracScale ⟨rneNat s.num s.den, 1⟩ (e - 52)

/-- Truncation toward zero of a nonnegative fraction: Python's `int()`
applied to a nonnegative float value. -/
def fracTrunc (x : Frac) : Nat := x.num / x.den

/-- Exact value of a decimal literal `digits[.digits]` as a fraction. -/
def parseDecFrac (cs : List Char) : Option Frac :=
  let ip := cs.takeWhile Char.isDigit
  let rest := cs.dropWhile Char.isDigit
  match rest with
  | [] => if ip.isEmpty then none else some ⟨natOfDigits ip, 1⟩
  | '.' :: fp =>
    if fp.all Char.isDigit && !(ip.isEmpty && fp.isEmpty) then
      some ⟨natOfDigits ip * 10 ^ fp.length + natOfDigits fp, 10 ^ fp.length⟩
    else none
  | _ => none

/-- Models Python's `float(s)` on plain decimal literals
`[-]digits[.digits]`, including correct rounding of the decimal value to
binary64; the result is a sign (`true` = negative) and the exact absolute
value of the float.  Exponent forms, `inf`/`nan`, whitespace and a
leading `+` do not occur in redis INFO values and are not modelled;
`none` models the `ValueError` Python raises on malformed input. -/
def pyFloat (s : String) : Option (Bool × Frac) :=
  match s.toList with
  | '-' :: cs => (parseDecFrac cs).map fun v => (true, f64roundPos v)
  | cs => (parseDecFrac cs).map fun v => (false, f64roundPos v)

/-- The scaled-ratio coercion of the stats table (source line 44):
`lambda x: int(float(x) * 100)`, with exact binary64 arithmetic (the
product is rounded to binary64 before `int()` truncates toward zero). -/
def scaledRatioCoerce (s : String) : Option Int :=
  (pyFloat s).map fun sv =>
    let prod := f64roundPos ⟨sv.2.num * 100, sv.2.den⟩
    if sv.1 then -(fracTrunc prod : Int) else (fracTrunc prod : Int)

/-- The fixed health-metric table (source lines 32-55): INFO key paired
with the coercion applied to its textual value. -/
def stats_keys : List (String × (String → Option Int)) :=
  [("connected_clients", pyInt),
   ("client_longest_output_list", pyInt),
   ("client_biggest_input_buf", pyInt),
   ("blocked_clients", pyInt),
   ("used_memory", pyInt),
   ("used_memory_rss", pyInt),
   ("used_memory_peak", pyInt),
   ("used_memory_lua", pyInt),
   ("mem_fragmentation_ratio", scaledRatioCoerce),
   ("rdb_bgsave_in_progress", pyInt),
   ("aof_rewrite_in_progress", pyInt),
   ("aof_base_size", pyInt),
   ("aof_current_size", pyInt),
   ("total_connections_received", pyInt),
   ("total_commands_processed", pyInt)]

example : scaledRatioCoerce "0.87" = some 87 := by decide
example : scaledRatioCoerce "0.29" = some 28 := by decide
example : pyInt "6379" = some 6379 := by decide

/-! ### The main loop (source lines 70-153)

Oracles: `sendOk n` says whether the n-th `sock.sendall` succeeds (each
sample attempt makes exactly one `int(time.time())` call followed by one
`sendall`, so a single counter `n` indexes both); `clock n` is the
integer timestamp the n-th such call returns; `connectOk c` is whether
the c-th `sock.connect` succeeds; the store's behaviour at one target
during one tick is a `StoreView`. -/

/-- Observable events of a run, in order: connect attempts on a fresh
socket (line 89), successful sends of one encoded line, a send that
raised (lines 118-121 and 133-136), `sock.close()` (line 151), sleeps
(lines 92 and 143), and an uncaught exception killing the process. -/
inductive Ev
  | conn (ok : Bool)
  | sent (line : String)
  | sendFail
  | closed
  | slept (secs : Nat)
  | crashed
deriving DecidableEq

/-- What the store at one target looks like during one tick: `info` is
`none` when `Redis(...)` or `client.info()` raises (caught at line 105),
otherwise the fetched info mapping; `llen` gives list lengths, with
`.error ()` when `client.llen` raises (NOT caught, line 129). -/
structure StoreView where
  info : Option (List (String × String))
  llen : String → Except Unit Nat

/-- The configuration surface the loop reads (source lines 57-68).
`lists = []` models an unset `--lists` (falsy in Python).  `once` is
retained even though the `if args.once` check at line 147 sits after an
unconditional `break` and is unreachable. -/
structure Args where
  redis_server : String
  redis_ports : List Nat
  no_server_stats : Bool
  lists : List String
  once : Bool
  interval : Nat

/-- The server-stats branch (source lines 109-124): walk the key table,
skip keys absent from `info` (line 111), coerce the value (line 114,
uncaught on error), timestamp and send; a send failure breaks out of the
key loop (third component `true`).  Returns the events, the advanced
sample counter, and the break flag. -/
def runStats (info : List (String × String)) :
    List (String × (String → Option Int)) → (Nat → Bool) → (Nat → Nat) →
    String → Nat → Except Unit (List Ev × Nat × Bool)
  | [], _, _, _, n => .ok ([], n, false)
  | (key, keytype) :: rest, sendOk, clock, base, n =>
    match info.lookup key with
    | none => runStats info rest sendOk clock base n
    | some raw =>
      match keytype raw with
      | none => .error ()
      | some value =>
        let cmd := encodeLine (base ++ key) value (clock n)
        if sendOk n then
          match runStats info rest sendOk clock base (n + 1) with
          | .error () => .error ()
          | .ok (evs, n2, b) => .ok (.sent cmd :: evs, n2, b)
        else .ok ([.sendFail], n + 1, true)

/-- The list-length branch (source lines 126-139): for each watched list
fetch its length (uncaught on error, line 129), timestamp and send; a
send failure breaks out.  NOTE the source computes
`lists_key = base_key + "list."` at line 127 and never uses it: the line
at 131 goes out under `base_key + key`, without the `list.` segment. -/
def runLists (llen : String → Except Unit Nat) :
    List String → (Nat → Bool) → (Nat → Nat) → String → Nat →
    Except Unit (List Ev × Nat × Bool)
  | [], _, _, _, n => .ok ([], n, false)
  | key :: rest, sendOk, clock, base, n =>
    match llen key with
    | .error () => .error ()
    | .ok len =>
      let cmd := encodeLine (base ++ key) (len : Int) (clock n)
      if sendOk n then
        match runLists llen rest sendOk clock base (n + 1) with
        | .error () => .error ()
        | .ok (evs, n2, b) => .ok (.sent cmd :: evs, n2, b)
      else .ok ([.sendFail], n + 1, true)

/-- One target's turn inside a tick (source lines 96-139).  An `info`
failure is caught and skips the target (line 107).  When server stats
are enabled, the stats `for/else` ends in `continue` (line 123) or
`break` (line 124) either way, so the `if args.lists` block at line 126
is unreachable that turn: the branches are mutually exclusive and lists
are sampled only under `--no-server-stats`. -/
def runTarget (noServerStats : Bool) (lists : List String) (server : String)
    (sv : StoreView) (port : Nat) (sendOk : Nat → Bool) (clock : Nat → Nat)
    (n : Nat) : Except Unit (List Ev × Nat × Bool) :=
  match sv.info with
  | none => .ok ([], n, false)
  | some info =>
    if noServerStats = false then
      runStats info stats_keys sendOk clock
        ("redis." ++ server ++ ":" ++ natStr port ++ ".") n
    else if lists ≠ [] then
      runLists sv.llen lists sendOk clock
        ("redis." ++ server ++ ":" ++ natStr port ++ ".") n
    else .ok ([], n, false)

/-- The `for redis_port in args.redis_ports` loop (lines 96-139): run
the targets left to right, aborting the pass at the first break. -/
def runTickAux (noServerStats : Bool) (lists : List String) (server : String) :
    List (Nat × StoreView) → (Nat → Bool) → (Nat → Nat) → Nat →
    Except Unit (List Ev × Nat × Bool)
  | [], _, _, n => .ok ([], n, false)
  | (port, sv) :: rest, sendOk, clock, n =>
    match runTarget noServerStats lists server sv port sendOk clock n with
    | .error () => .error ()
    | .ok (evs, n1, true) => .ok (evs, n1, true)
    | .ok (evs, n1, false) =>
      match runTickAux noServerStats lists server rest sendOk clock n1 with
      | .error () => .error ()
      | .ok (evs2, n2, b) => .ok (evs ++ evs2, n2, b)

/-- Pair each configured port with the store's view of it this tick. -/
def mkTargets (ports : List Nat) (view : Nat → StoreView) :
    List (Nat × StoreView) :=
  match ports with
  | [] => []
  | p :: ps => (p, view 0) :: mkTargets ps fun i => view (i + 1)

/-- Cursors into the oracles: sample counter `n`, connect-attempt
counter `c`, tick counter `t`. -/
structure Cur where
  n : Nat
  c : Nat
  t : Nat
deriving DecidableEq

/-- Where the scheduler stands: at the top of the outer `while` before a
connect (line 85), or inside the inner polling `while` (line 95). -/
inductive Mode
  | disconnected
  | connected
deriving DecidableEq

/-- The scheduler (source lines 85-153), driven by `fuel` loop
iterations.  A failed connect sleeps 2 s and retries (lines 90-93); a
completed pass sleeps `interval` and ticks again (lines 141-144) — also
when `once` is set, because `if args.once: sys.exit()` at line 147
follows an unconditional `break` and never runs; a broken pass closes
the socket and reconnects (lines 145 and 150-153); an uncaught
exception ends the trace with `crashed`. -/
def run (args : Args) (store : Nat → Nat → StoreView) (connectOk : Nat → Bool)
    (sendOk : Nat → Bool) (clock : Nat → Nat) :
    Nat → Cur → Mode → List Ev
  | 0, _, _ => []
  | fuel + 1, cur, .disconnected =>
    if connectOk cur.c then
      .conn true ::
        run args store connectOk sendOk clock fuel ⟨cur.n, cur.c + 1, cur.t⟩ .connected
    else
      .conn false :: .slept 2 ::
        run args store connectOk sendOk clock fuel ⟨cur.n, cur.c + 1, cur.t⟩ .disconnected
  | fuel + 1, cur, .connected =>
    match runTickAux args.no_server_stats args.lists args.redis_server
        (mkTargets args.redis_ports (store cur.t)) sendOk clock cur.n with
    | .error () => [.crashed]
    | .ok (evs, n2, true) =>
      evs ++ .closed ::
        run args store connectOk sendOk clock fuel ⟨n2, cur.c, cur.t + 1⟩ .disconnected
    | .ok (evs, n2, false) =>
      evs ++ .slept args.interval ::
        run args store connectOk sendOk clock fuel ⟨n2, cur.c, cur.t + 1⟩ .connected

instance {ε α : Type _} [DecidableEq ε] [DecidableEq α] :
    DecidableEq (Except ε α) := fun a b =>
  match a, b with
  | .error e, .error f =>
    if h : e = f then isTrue (h ▸ rfl) else isFalse fun hh => h (by cases hh; rfl)
  | .error _, .ok _ => isFalse fun hh => by cases hh
  | .ok _, .error _ => isFalse fun hh => by cases hh
  | .ok x, .ok y =>
    if h : x = y then isTrue (h ▸ rfl) else isFalse fun hh => h (by cases hh; rfl)

example :
    runTickAux true ["myqueue"] "localhost"
      [(6379, ⟨some [], fun _ => .ok 5⟩)] (fun _ => true) (fun _ => 0) 0 =
      .ok ([.sent "redis.localhost:6379.myqueue 5 0\n"], 1, false) := by decide

/-! ### Shape of the events of one tick

A pass emits only `sent` events, except that a broken pass ends in one
final `sendFail`; in particular a tick never touches the socket
lifecycle (`conn`/`closed`) and never emits `crashed`. -/

/-- Shape of a tick fragment's events given its break flag `b`: all
successful sends, plus — exactly when broken — one trailing
`sendFail` after which nothing at all is emitted. -/
def evShape : List Ev → Bool → Prop
  | evs, true => ∃ pre, evs = pre ++ [Ev.sendFail] ∧ ∀ e ∈ pre, ∃ l, e = Ev.sent l
  | evs, false => ∀ e ∈ evs, ∃ l, e = Ev.sent l

theorem evShape_nil : evShape [] false := by
  intro e he
  simp at he

theorem evShape_fail : evShape [Ev.sendFail] true :=
  ⟨[], rfl, fun e he => by simp at he⟩

theorem evShape_cons_sent (l : String) (evs : List Ev) (b : Bool)
    (h : evShape evs b) : evShape (Ev.sent l :: evs) b := by
  cases b with
  | true =>
    obtain ⟨pre, hpre, hall⟩ := h
    exact ⟨Ev.sent l :: pre, by rw [hpre]; rfl, by
      intro e he
      rcases List.mem_cons.mp he with h1 | h1
      · exact ⟨l, h1⟩
      · exact hall e h1⟩
  | false =>
    intro e he
    rcases List.mem_cons.mp he with h1 | h1
    · exact ⟨l, h1⟩
    · exact h e h1

theorem evShape_append (evs1 evs2 : List Ev) (b : Bool)
    (h1 : ∀ e ∈ evs1, ∃ l, e = Ev.sent l) (h2 : evShape evs2 b) :
    evShape (evs1 ++ evs2) b := by
  cases b with
  | true =>
    obtain ⟨pre, hpre, hall⟩ := h2
    refine ⟨evs1 ++ pre, by rw [hpre, List.append_assoc], ?_⟩
    intro e he
    rcases List.mem_append.mp he with h | h
    · exact h1 e h
    · exact hall e h
  | false =>
    intro e he
    rcases List.mem_append.mp he with h | h
    · exact h1 e h
    · exact h2 e h

theorem evShape_mem (evs : List Ev) (b : Bool) (h : evShape evs b) :
    ∀ e ∈ evs, (∃ l, e = Ev.sent l) ∨ e = Ev.sendFail := by
  cases b with
  | true =>
    obtain ⟨pre, hpre, hall⟩ := h
    intro e he
    rw [hpre] at he
    rcases List.mem_append.mp he with h1 | h1
    · exact .inl (hall e h1)
    · simp at h1
      exact .inr h1
  | false => exact fun e he => .inl (h e he)

theorem runStats_shape (info : List (String × String)) (sendOk : Nat → Bool)
    (clock : Nat → Nat) (base : String) :
    ∀ (keys : List (String × (String → Option Int))) n evs n2 b,
      runStats info keys sendOk clock base n = .ok (evs, n2, b) → evShape evs b := by
  intro keys
  induction keys with
  | nil =>
    intro n evs n2 b h
    simp only [runStats, Except.ok.injEq, Prod.mk.injEq] at h
    obtain ⟨h1, _, h3⟩ := h
    subst h1; subst h3
    exact evShape_nil
  | cons kf rest ih =>
    obtain ⟨key, kt⟩ := kf
    intro n evs n2 b h
    simp only [runStats] at h
    split at h
    · exact ih _ _ _ _ h
    · split at h
      · exact Except.noConfusion h
      · split at h
        · split at h
          · exact Except.noConfusion h
          · rename_i heq
            simp only [Except.ok.injEq, Prod.mk.injEq] at h
            obtain ⟨h1, _, h3⟩ := h
            subst h1; subst h3
            exact evShape_cons_sent _ _ _ (ih _ _ _ _ heq)
        · simp only [Except.ok.injEq, Prod.mk.injEq] at h
          obtain ⟨h1, _, h3⟩ := h
          subst h1; subst h3
          exact evShape_fail

theorem runLists_shape (llen : String → Except Unit Nat) (sendOk : Nat → Bool)
    (clock : Nat → Nat) (base : String) :
    ∀ (lists : List String) n evs n2 b,
      runLists llen lists sendOk clock base n = .ok (evs, n2, b) → evShape evs b := by
  intro lists
  induction lists with
  | nil =>
    intro n evs n2 b h
    simp only [runLists, Except.ok.injEq, Prod.mk.injEq] at h
    obtain ⟨h1, _, h3⟩ := h
    subst h1; subst h3
    exact evShape_nil
  | cons key rest ih =>
    intro n evs n2 b h
    simp only [runLists] at h
    split at h
    · exact Except.noConfusion h
    · split at h
      · split at h
        · exact Except.noConfusion h
        · rename_i heq
          simp only [Except.ok.injEq, Prod.mk.injEq] at h
          obtain ⟨h1, _, h3⟩ := h
          subst h1; subst h3
          exact evShape_cons_sent _ _ _ (ih _ _ _ _ heq)
      · simp only [Except.ok.injEq, Prod.mk.injEq] at h
        obtain ⟨h1, _, h3⟩ := h
        subst h1; subst h3
        exact evShape_fail

theorem runTarget_shape (noServerStats : Bool) (lists : List String)
    (server : String) (sv : StoreView) (port : Nat) (sendOk : Nat → Bool)
    (clock : Nat → Nat) (n : Nat) (evs : List Ev) (n2 : Nat) (b : Bool)
    (h : runTarget noServerStats lists server sv port sendOk clock n = .ok (evs, n2, b)) :
    evShape evs b := by
  unfold runTarget at h
  split at h
  · simp only [Except.ok.injEq, Prod.mk.injEq] at h
    obtain ⟨h1, _, h3⟩ := h
    subst h1; subst h3
    exact evShape_nil
  · split at h
    · exact runStats_shape _ _ _ _ _ _ _ _ _ h
    · split at h
      · exact runLists_shape _ _ _ _ _ _ _ _ _ h
      · simp only [Except.ok.injEq, Prod.mk.injEq] at h
        obtain ⟨h1, _, h3⟩ := h
        subst h1; subst h3
        exact evShape_nil

theorem runTickAux_shape (noServerStats : Bool) (lists : List String)
    (server : String) (sendOk : Nat → Bool) (clock : Nat → Nat) :
    ∀ (targets : List (Nat × StoreView)) n evs n2 b,
      runTickAux noServerStats lists server targets sendOk clock n = .ok (evs, n2, b) →
      evShape evs b := by
  intro targets
  induction targets with
  | nil =>
    intro n evs n2 b h
    simp only [runTickAux, Except.ok.injEq, Prod.mk.injEq] at h
    obtain ⟨h1, _, h3⟩ := h
    subst h1; subst h3
    exact evShape_nil
  | cons t rest ih =>
    obtain ⟨port, sv⟩ := t
    intro n evs n2 b h
    simp only [runTickAux] at h
    split at h
    · exact Except.noConfusion h
    · rename_i heq
      simp only [Except.ok.injEq, Prod.mk.injEq] at h
      obtain ⟨h1, _, h3⟩ := h
      subst h1; subst h3
      exact runTarget_shape _ _ _ _ _ _ _ _ _ _ _ heq
    · rename_i heq
      split at h
      · exact Except.noConfusion h
      · rename_i heq2
        simp only [Except.ok.injEq, Prod.mk.injEq] at h
        obtain ⟨h1, _, h3⟩ := h
        subst h1; subst h3
        have hs1 := runTarget_shape _ _ _ _ _ _ _ _ _ _ _ heq
        exact evShape_append _ _ _ hs1 (ih _ _ _ _ heq2)

/-! ### When the loop cannot crash

The only uncaught exceptions are a coercion failing on a present value
(line 114) and `client.llen` raising (line 129).  Under hypotheses that
rule those out, every tick returns `.ok` and the trace never contains
`crashed` — whatever the sink, the clock and the info fetches do. -/

/-- All coercions of `keys` succeed on the values present in `info`. -/
def coerceOkOn (keys : List (String × (String → Option Int)))
    (info : List (String × String)) : Bool :=
  keys.all fun kf =>
    match info.lookup kf.1 with
    | none => true
    | some raw => (kf.2 raw).isSome

/-- All stats-table coercions succeed on the values present in `info`. -/
def coerceOk (info : List (String × String)) : Bool := coerceOkOn stats_keys info

/-- This store view can be sampled without an uncaught exception:
present values coerce and watched list lengths are fetchable. -/
def viewOk (lists : List String) (sv : StoreView) : Prop :=
  (∀ info, sv.info = some info → coerceOk info = true) ∧
  (∀ l ∈ lists, ∃ m, sv.llen l = .ok m)

theorem runStats_isOk (info : List (String × String)) (sendOk : Nat → Bool)
    (clock : Nat → Nat) (base : String) :
    ∀ keys, coerceOkOn keys info = true →
      ∀ n, ∃ r, runStats info keys sendOk clock base n = .ok r := by
  intro keys
  induction keys with
  | nil => exact fun _ n => ⟨([], n, false), rfl⟩
  | cons kf rest ih =>
    obtain ⟨key, kt⟩ := kf
    intro hc n
    simp only [coerceOkOn, List.all_cons, Bool.and_eq_true] at hc
    obtain ⟨hc1, hc2⟩ := hc
    simp only [runStats]
    cases hl : List.lookup key info with
    | none =>
      simp only [hl]
      exact ih hc2 n
    | some raw =>
      simp only [hl]
      simp only [hl] at hc1
      cases hkt : kt raw with
      | none => rw [hkt] at hc1; simp at hc1
      | some v =>
        simp only [hkt]
        by_cases hs : sendOk n
        · simp only [if_pos hs]
          obtain ⟨r, hr⟩ := ih hc2 (n + 1)
          obtain ⟨evs0, n0, b0⟩ := r
          simp only [hr]
          exact ⟨_, rfl⟩
        · simp only [if_neg hs]
          exact ⟨_, rfl⟩

theorem runLists_isOk (llen : String → Except Unit Nat) (sendOk : Nat → Bool)
    (clock : Nat → Nat) (base : String) :
    ∀ lists, (∀ l ∈ lists, ∃ m, llen l = .ok m) →
      ∀ n, ∃ r, runLists llen lists sendOk clock base n = .ok r := by
  intro lists
  induction lists with
  | nil => exact fun _ n => ⟨([], n, false), rfl⟩
  | cons key rest ih =>
    intro hl n
    obtain ⟨m, hm⟩ := hl key (List.mem_cons_self key rest)
    have hrest : ∀ l ∈ rest, ∃ m2, llen l = .ok m2 :=
      fun l hl2 => hl l (List.mem_cons_of_mem key hl2)
    simp only [runLists, hm]
    by_cases hs : sendOk n
    · simp only [if_pos hs]
      obtain ⟨r, hr⟩ := ih hrest (n + 1)
      obtain ⟨evs0, n0, b0⟩ := r
      simp only [hr]
      exact ⟨_, rfl⟩
    · simp only [if_neg hs]
      exact ⟨_, rfl⟩

theorem runTarget_isOk (ns : Bool) (lists : List String) (server : String)
    (sv : StoreView) (port : Nat) (sendOk : Nat → Bool) (clock : Nat → Nat)
    (n : Nat) (hv : viewOk lists sv) :
    ∃ r, runTarget ns lists server sv port sendOk clock n = .ok r := by
  obtain ⟨hinfo, hllen⟩ := hv
  unfold runTarget
  cases hi : sv.info with
  | none => exact ⟨_, rfl⟩
  | some info =>
    by_cases hns : ns = false
    · simp only [if_pos hns]
      exact runStats_isOk info sendOk clock _ stats_keys (hinfo info hi) n
    · simp only [if_neg hns]
      by_cases hlst : lists ≠ []
      · simp only [if_pos hlst]
        exact runLists_isOk sv.llen sendOk clock _ lists hllen n
      · simp only [if_neg hlst]
        exact ⟨_, rfl⟩

theorem runTickAux_isOk (ns : Bool) (lists : List String) (server : String)
    (sendOk : Nat → Bool) (clock : Nat → Nat) :
    ∀ targets : List (Nat × StoreView), (∀ x ∈ targets, viewOk lists x.2) →
      ∀ n, ∃ r, runTickAux ns lists server targets sendOk clock n = .ok r := by
  intro targets
  induction targets with
  | nil => exact fun _ n => ⟨([], n, false), rfl⟩
  | cons t rest ih =>
    obtain ⟨port, sv⟩ := t
    intro hv n
    have hv1 : viewOk lists sv := hv (port, sv) (List.mem_cons_self _ _)
    have hvr : ∀ x ∈ rest, viewOk lists x.2 :=
      fun x hx => hv x (List.mem_cons_of_mem _ hx)
    obtain ⟨⟨evs1, n1, b1⟩, h1⟩ := runTarget_isOk ns lists server sv port sendOk clock n hv1
    cases b1 with
    | true =>
      simp only [runTickAux, h1]
      exact ⟨_, rfl⟩
    | false =>
      obtain ⟨⟨evs2, n2, b2⟩, h2⟩ := ih hvr n1
      simp only [runTickAux, h1, h2]
      exact ⟨_, rfl⟩

theorem mkTargets_mem : ∀ (ports : List Nat) (view : Nat → StoreView),
    ∀ x ∈ mkTargets ports view, ∃ i, x.2 = view i := by
  intro ports
  induction ports with
  | nil => intro view x hx; simp [mkTargets] at hx
  | cons p ps ih =>
    intro view x hx
    simp only [mkTargets] at hx
    rcases List.mem_cons.mp hx with h | h
    · exact ⟨0, by rw [h]⟩
    · obtain ⟨i, hi⟩ := ih (fun i => view (i + 1)) x h
      exact ⟨i + 1, hi⟩

theorem run_no_crash (args : Args) (store : Nat → Nat → StoreView)
    (connectOk sendOk : Nat → Bool) (clock : Nat → Nat)
    (h : ∀ t i, viewOk args.lists (store t i)) :
    ∀ fuel cur mode, Ev.crashed ∉ run args store connectOk sendOk clock fuel cur mode := by
  intro fuel
  induction fuel with
  | zero => intro cur mode; simp [run]
  | succ f ih =>
    intro cur mode
    cases mode with
    | disconnected =>
      by_cases hc : connectOk cur.c
      · simp only [run, if_pos hc]
        intro hmem
        rcases List.mem_cons.mp hmem with h1 | h1
        · exact Ev.noConfusion h1
        · exact ih _ _ h1
      · simp only [run, if_neg hc]
        intro hmem
        rcases List.mem_cons.mp hmem with h1 | h1
        · exact Ev.noConfusion h1
        · rcases List.mem_cons.mp h1 with h2 | h2
          · exact Ev.noConfusion h2
          · exact ih _ _ h2
    | connected =>
      have hall : ∀ x ∈ mkTargets args.redis_ports (store cur.t), viewOk args.lists x.2 := by
        intro x hx
        obtain ⟨i, hi⟩ := mkTargets_mem _ _ x hx
        rw [hi]
        exact h cur.t i
      obtain ⟨⟨evs, n2, b⟩, htick⟩ :=
        runTickAux_isOk args.no_server_stats args.lists args.redis_server sendOk clock _ hall cur.n
      have hshape := runTickAux_shape _ _ _ _ _ _ _ _ _ _ htick
      have hevs : Ev.crashed ∉ evs := by
        intro hmem
        rcases evShape_mem _ _ hshape _ hmem with ⟨l, hl⟩ | hl
        · exact Ev.noConfusion hl
        · exact Ev.noConfusion hl
      cases b with
      | true =>
        simp only [run, htick]
        intro hmem
        rcases List.mem_append.mp hmem with h1 | h1
        · exact hevs h1
        · rcases List.mem_cons.mp h1 with h2 | h2
          · exact Ev.noConfusion h2
          · exact ih _ _ h2
      | false =>
        simp only [run, htick]
        intro hmem
        rcases List.mem_append.mp hmem with h1 | h1
        · exact hevs h1
        · rcases List.mem_cons.mp h1 with h2 | h2
          · exact Ev.noConfusion h2
          · exact ih _ _ h2

/-- `args.once` is never read by the loop: the `if args.once` at source
line 147 is dead code, so the whole observable behaviour is independent
of the single-shot flag. -/
theorem run_once_irrelevant (a : Args) (b : Bool) (store : Nat → Nat → StoreView)
    (connectOk sendOk : Nat → Bool) (clock : Nat → Nat) :
    ∀ fuel cur mode,
      run { a with once := b } store connectOk sendOk clock fuel cur mode =
        run a store connectOk sendOk clock fuel cur mode := by
  intro fuel
  induction fuel with
  | zero => intro cur mode; rfl
  | succ f ih =>
    intro cur mode
    cases mode with
    | disconnected =>
      by_cases hc : connectOk cur.c <;> simp [run, hc, ih]
    | connected =>
      cases htick : runTickAux a.no_server_stats a.lists a.redis_server
          (mkTargets a.redis_ports (store cur.t)) sendOk clock cur.n with
      | error u => cases u; simp [run, htick]
      | ok r =>
        obtain ⟨evs, n2, bb⟩ := r
        cases bb <;> simp [run, htick, ih]

/-! ### The claims -/

/-- C1: if a send to the sink fails while emitting the samples of a
tick, the pass's events end at that failure — everything before it is a
successful send and nothing of this target or of any later target
follows — the scheduler closes the broken socket and returns to the
disconnected state, whose next sink interaction is a fresh connect
attempt. -/
theorem claim1_send_failure_aborts_pass (args : Args)
    (store : Nat → Nat → StoreView) (connectOk sendOk : Nat → Bool)
    (clock : Nat → Nat) (fuel : Nat) (cur : Cur) (evs : List Ev) (n2 : Nat)
    (htick : runTickAux args.no_server_stats args.lists args.redis_server
      (mkTargets args.redis_ports (store cur.t)) sendOk clock cur.n =
      .ok (evs, n2, true)) :
    (∃ pre, evs = pre ++ [Ev.sendFail] ∧ ∀ e ∈ pre, ∃ l, e = Ev.sent l) ∧
    run args store connectOk sendOk clock (fuel + 1) cur .connected =
      evs ++ Ev.closed ::
        run args store connectOk sendOk clock fuel ⟨n2, cur.c, cur.t + 1⟩ .disconnected ∧
    ∀ f2 cur2, (run args store connectOk sendOk clock (f2 + 1) cur2 .disconnected).head? =
      some (Ev.conn (connectOk cur2.c)) := by
  refine ⟨runTickAux_shape _ _ _ _ _ _ _ _ _ _ htick, ?_, ?_⟩
  · simp [run, htick]
  · intro f2 cur2
    by_cases hc : connectOk cur2.c <;> simp [run, hc]

theorem claim1_send_failure_aborts_pass_witness :
    (runTickAux false [] "h"
        (mkTargets [1] fun _ => ⟨some [("connected_clients", "3")], fun _ => .ok 0⟩)
        (fun _ => false) (fun _ => 0) 0 = .ok ([Ev.sendFail], 1, true)) ∧
    (∃ pre, ([Ev.sendFail] : List Ev) = pre ++ [Ev.sendFail] ∧
      ∀ e ∈ pre, ∃ l, e = Ev.sent l) :=
  ⟨by decide,
    (claim1_send_failure_aborts_pass ⟨"h", [1], false, [], false, 10⟩
      (fun _ _ => ⟨some [("connected_clients", "3")], fun _ => .ok 0⟩)
      (fun _ => true) (fun _ => false) (fun _ => 0) 1 ⟨0, 0, 0⟩ [Ev.sendFail] 1
      (by decide)).1⟩

/-- C2 is refuted by the code: `if args.once: sys.exit()` (line 147)
sits after an unconditional `break` and never runs, so with `--once`
set the scheduler still sleeps after a complete pass and begins a
second tick (two `sent`/`slept` pairs below); indeed the whole trace is
independent of the `once` flag. -/
theorem claim2_single_shot_never_terminates :
    run ⟨"h", [1], false, [], true, 10⟩
        (fun _ _ => ⟨some [("connected_clients", "3")], fun _ => .ok 0⟩)
        (fun _ => true) (fun _ => true) (fun _ => 0) 3 ⟨0, 0, 0⟩ .disconnected =
      [Ev.conn true,
       Ev.sent "redis.h:1.connected_clients 3 0\n", Ev.slept 10,
       Ev.sent "redis.h:1.connected_clients 3 0\n", Ev.slept 10] ∧
    ∀ (a : Args) (b : Bool) (store : Nat → Nat → StoreView)
      (connectOk sendOk : Nat → Bool) (clock : Nat → Nat) fuel cur mode,
      run { a with once := b } store connectOk sendOk clock fuel cur mode =
        run a store connectOk sendOk clock fuel cur mode :=
  ⟨by decide, fun a b store connectOk sendOk clock fuel cur mode =>
    run_once_irrelevant a b store connectOk sendOk clock fuel cur mode⟩

/-- C3 is refuted by the code: `lists_key = base_key + "list."` (line
127) is computed and never used, so a list-length sample goes out under
`redis.<host>:<port>.<list>` (line 131 uses `base_key + key`) — not
under the `list.`-segmented path the claim states. -/
theorem claim3_list_path_has_no_list_segment :
    runTickAux true ["myqueue"] "localhost"
        [(6379, ⟨some [], fun _ => .ok 5⟩)] (fun _ => true) (fun _ => 0) 0 =
      .ok ([Ev.sent "redis.localhost:6379.myqueue 5 0\n"], 1, false) ∧
    "redis.localhost:6379.myqueue 5 0\n" ≠
      encodeLine "redis.localhost:6379.list.myqueue" 5 0 :=
  ⟨by decide, by decide⟩

/-- C4 as stated is false: an error raised by `client.llen` during a
list-length fetch (line 129) is outside every `try`, so the process
dies with a traceback instead of continuing the polling loop — here the
run ends in `crashed` right after the first connect, with fuel left. -/
theorem claim4_counterexample :
    run ⟨"h", [1], true, ["q"], false, 10⟩
        (fun _ _ => ⟨some [], fun _ => .error ()⟩)
        (fun _ => true) (fun _ => true) (fun _ => 0) 5 ⟨0, 0, 0⟩ .disconnected =
      [Ev.conn true, Ev.crashed] := by decide

/-- C4 amended: sink-unreachable, sink-write, target-connect/info and
missing-key failures never terminate the process — provided list-length
fetches and coercions of present values do not raise (those two are
uncaught).  Whatever the connect, send, info and clock oracles do, the
trace never contains `crashed`. -/
theorem claim4_no_class_failure_terminates (args : Args)
    (store : Nat → Nat → StoreView) (connectOk sendOk : Nat → Bool)
    (clock : Nat → Nat) (h : ∀ t i, viewOk args.lists (store t i)) :
    ∀ fuel cur mode, Ev.crashed ∉ run args store connectOk sendOk clock fuel cur mode :=
  run_no_crash args store connectOk sendOk clock h

theorem claim4_no_class_failure_terminates_witness :
    (∀ t i : Nat, viewOk ["q"]
      ((fun _ _ => (⟨some [("connected_clients", "3")], fun _ => .ok 0⟩ : StoreView)) t i)) ∧
    Ev.crashed ∉ run ⟨"h", [1], false, ["q"], false, 10⟩
        (fun _ _ => ⟨some [("connected_clients", "3")], fun _ => .ok 0⟩)
        (fun _ => true) (fun _ => true) (fun _ => 0) 4 ⟨0, 0, 0⟩ .disconnected :=
  have hv : ∀ t i : Nat, viewOk ["q"]
      ((fun _ _ => (⟨some [("connected_clients", "3")], fun _ => .ok 0⟩ : StoreView)) t i) :=
    fun _ _ => ⟨fun info hinfo => by cases hinfo; decide, fun l _ => ⟨0, rfl⟩⟩
  ⟨hv, claim4_no_class_failure_terminates ⟨"h", [1], false, ["q"], false, 10⟩
      (fun _ _ => ⟨some [("connected_clients", "3")], fun _ => .ok 0⟩)
      (fun _ => true) (fun _ => true) (fun _ => 0) hv 4 ⟨0, 0, 0⟩ .disconnected⟩

/-- C5: with server-health sampling enabled (`no_server_stats = false`)
a target's turn is exactly the stats branch: its result does not depend
on the configured list watches or on the store's llen behaviour, and on
a reachable target it equals `runStats` on the fetched info — the
list-length branch is never executed that turn. -/
theorem claim5_branches_mutually_exclusive (lists lists2 : List String)
    (server : String) (io : Option (List (String × String)))
    (g g2 : String → Except Unit Nat) (port : Nat) (sendOk : Nat → Bool)
    (clock : Nat → Nat) (n : Nat) :
    runTarget false lists server ⟨io, g⟩ port sendOk clock n =
      runTarget false lists2 server ⟨io, g2⟩ port sendOk clock n ∧
    ∀ info, io = some info →
      runTarget false lists server ⟨io, g⟩ port sendOk clock n =
        runStats info stats_keys sendOk clock
          ("redis." ++ server ++ ":" ++ natStr port ++ ".") n := by
  constructor
  · cases io <;> rfl
  · intro info hinfo
    subst hinfo
    rfl

/-- Deleting an unreachable target anywhere in the pass changes nothing:
it consumes no sends and no clock reads, so the rest of the tick is
bit-for-bit the same. -/
theorem runTickAux_skip_unreachable (ns : Bool) (lists : List String)
    (server : String) (sendOk : Nat → Bool) (clock : Nat → Nat)
    (p : Nat) (g : String → Except Unit Nat) :
    ∀ (A B : List (Nat × StoreView)) (n : Nat),
      runTickAux ns lists server (A ++ (p, ⟨none, g⟩) :: B) sendOk clock n =
        runTickAux ns lists server (A ++ B) sendOk clock n := by
  intro A
  induction A with
  | nil =>
    intro B n
    cases h : runTickAux ns lists server B sendOk clock n with
    | error u => cases u; simp [runTickAux, runTarget, h]
    | ok r =>
      obtain ⟨evs, n2, b⟩ := r
      simp [runTickAux, runTarget, h]
  | cons t A ih =>
    obtain ⟨port, sv⟩ := t
    intro B n
    simp only [List.cons_append, runTickAux]
    cases hr : runTarget ns lists server sv port sendOk clock n with
    | error u => rfl
    | ok r =>
      obtain ⟨evs, n1, b⟩ := r
      cases b with
      | true => rfl
      | false =>
        simp only [List.append_eq]
        rw [ih]

/-- C6: a target whose connect/info fetch fails contributes nothing to
the tick — the emitted sequence is exactly that of the same tick with
the target deleted, so every other reachable target still produces its
full sample set — a tick by itself never closes or opens the sink
socket, and a completed pass keeps the connection: the scheduler just
sleeps and polls on. -/
theorem claim6_unreachable_target_skipped (args : Args)
    (store : Nat → Nat → StoreView) (connectOk sendOk : Nat → Bool)
    (clock : Nat → Nat) (fuel : Nat) (cur : Cur) :
    (∀ (ns : Bool) (lists : List String) (server : String) (p : Nat)
      (g : String → Except Unit Nat) (A B : List (Nat × StoreView)) (n : Nat),
      runTickAux ns lists server (A ++ (p, ⟨none, g⟩) :: B) sendOk clock n =
        runTickAux ns lists server (A ++ B) sendOk clock n) ∧
    (∀ (ns : Bool) (lists : List String) (server : String) targets n evs n2 b,
      runTickAux ns lists server targets sendOk clock n = .ok (evs, n2, b) →
      Ev.closed ∉ evs ∧ ∀ ok, Ev.conn ok ∉ evs) ∧
    (∀ evs n2,
      runTickAux args.no_server_stats args.lists args.redis_server
          (mkTargets args.redis_ports (store cur.t)) sendOk clock cur.n =
        .ok (evs, n2, false) →
      run args store connectOk sendOk clock (fuel + 1) cur .connected =
        evs ++ Ev.slept args.interval ::
          run args store connectOk sendOk clock fuel ⟨n2, cur.c, cur.t + 1⟩ .connected) := by
  refine ⟨fun ns lists server p g A B n =>
    runTickAux_skip_unreachable ns lists server sendOk clock p g A B n, ?_, ?_⟩
  · intro ns lists server targets n evs n2 b h
    have hs := runTickAux_shape ns lists server sendOk clock targets n evs n2 b h
    constructor
    · intro hmem
      rcases evShape_mem _ _ hs _ hmem with ⟨l, hl⟩ | hl <;> exact Ev.noConfusion hl
    · intro ok hmem
      rcases evShape_mem _ _ hs _ hmem with ⟨l, hl⟩ | hl <;> exact Ev.noConfusion hl
  · intro evs n2 h
    simp [run, h]

/-- Per-key sample count of the stats pass, for claim C7. -/
theorem length_filter_isSome_add (info : List (String × String)) :
    ∀ keys : List (String × (String → Option Int)),
      (keys.filter fun kf => (List.lookup kf.1 info).isSome).length +
        (keys.filter fun kf => (List.lookup kf.1 info).isNone).length = keys.length := by
  intro keys
  induction keys with
  | nil => rfl
  | cons kf rest ih =>
    simp only [List.filter_cons, List.length_cons]
    cases h : List.lookup kf.1 info with
    | none => simp [h]; omega
    | some raw => simp [h]; omega

/-- The stats pass with healthy sends and coercions: `.ok`, unbroken,
one sample and one counter step per present key. -/
theorem runStats_complete (info : List (String × String)) (sendOk : Nat → Bool)
    (clock : Nat → Nat) (base : String) (hs : ∀ i, sendOk i = true) :
    ∀ keys, coerceOkOn keys info = true → ∀ n,
      ∃ evs, runStats info keys sendOk clock base n =
        .ok (evs, n + (keys.filter fun kf => (List.lookup kf.1 info).isSome).length, false) ∧
        evs.length = (keys.filter fun kf => (List.lookup kf.1 info).isSome).length := by
  intro keys
  induction keys with
  | nil => intro _ n; exact ⟨[], by simp [runStats], rfl⟩
  | cons kf rest ih =>
    obtain ⟨key, kt⟩ := kf
    intro hc n
    simp only [coerceOkOn, List.all_cons, Bool.and_eq_true] at hc
    obtain ⟨hc1, hc2⟩ := hc
    simp only [runStats, List.filter_cons]
    cases hl : List.lookup key info with
    | none =>
      simp only [hl, Option.isSome_none, Bool.false_eq_true, if_false]
      obtain ⟨evs, hevs, hlen⟩ := ih hc2 n
      exact ⟨evs, hevs, hlen⟩
    | some raw =>
      simp only [hl, Option.isSome_some, if_true]
      simp only [hl] at hc1
      cases hkt : kt raw with
      | none => rw [hkt] at hc1; simp at hc1
      | some v =>
        simp only [hkt, hs n, if_true]
        obtain ⟨evs, hevs, hlen⟩ := ih hc2 (n + 1)
        refine ⟨Ev.sent (encodeLine (base ++ key) v (clock n)) :: evs, ?_, ?_⟩
        · rw [hevs]
          simp only [Except.ok.injEq, Prod.mk.injEq, List.length_cons, true_and,
            and_true]
          omega
        · simp [List.length_cons, hlen]

/-- C7: with sends succeeding and present values coercing, the stats
pass over the fixed table never raises and is not broken, and it yields
exactly one sample per table key present in the info map — one fewer
than configured for every missing key. -/
theorem claim7_missing_keys_skipped (info : List (String × String))
    (sendOk : Nat → Bool) (clock : Nat → Nat) (base : String) (n : Nat)
    (hc : coerceOk info = true) (hs : ∀ i, sendOk i = true) :
    ∃ evs n2, runStats info stats_keys sendOk clock base n = .ok (evs, n2, false) ∧
      evs.length = (stats_keys.filter fun kf => (List.lookup kf.1 info).isSome).length ∧
      evs.length + (stats_keys.filter fun kf => (List.lookup kf.1 info).isNone).length =
        stats_keys.length := by
  obtain ⟨evs, hevs, hlen⟩ := runStats_complete info sendOk clock base hs stats_keys hc n
  refine ⟨evs, _, hevs, hlen, ?_⟩
  rw [hlen]
  exact length_filter_isSome_add info stats_keys

theorem claim7_missing_keys_skipped_witness :
    (coerceOk [("connected_clients", "1"), ("blocked_clients", "2")] = true) ∧
    ∃ evs n2, runStats [("connected_clients", "1"), ("blocked_clients", "2")]
        stats_keys (fun _ => true) (fun _ => 0) "B." 0 = .ok (evs, n2, false) ∧
      evs.length = (stats_keys.filter fun kf =>
        (List.lookup kf.1 [("connected_clients", "1"), ("blocked_clients", "2")]).isSome).length ∧
      evs.length + (stats_keys.filter fun kf =>
        (List.lookup kf.1 [("connected_clients", "1"), ("blocked_clients", "2")]).isNone).length =
        stats_keys.length :=
  ⟨by decide, claim7_missing_keys_skipped _ _ _ "B." 0 (by decide) (fun _ => rfl)⟩

/-- C8 as universally stated is false: for the path `"a b"` (a space in
the path) the encoded line splits into four space-separated fields, not
three, and the first field is not the original path. -/
theorem claim8_counterexample :
    splitSpacesStr (encodeLine "a b" 5 7) = ["a", "b", "5", "7\n"] ∧
    ¬((splitSpacesStr (encodeLine "a b" 5 7)).length = 3 ∧
      (splitSpacesStr (encodeLine "a b" 5 7)).head? = some "a b") :=
  ⟨by decide, by decide⟩

theorem string_mk_toList (s : String) : (⟨s.toList⟩ : String) = s := by
  cases s; rfl

theorem string_mk_toList_newline (s : String) :
    (⟨s.toList ++ ['\n']⟩ : String) = s ++ "\n" := by
  cases s; rfl

/-- C8 amended to the spec's valid triples (paths without spaces): the
encoded line is exactly `<path> <value> <timestamp>\n` (it ends in the
newline), splitting on spaces yields exactly the three fields — the
path, the decimal rendering of the value (no fractional dot, and
parsing it back recovers the value), and the timestamp with the
trailing newline. -/
theorem claim8_encode_roundtrip (path : String) (v : Int) (ts : Nat)
    (hpath : ' ' ∉ path.toList) :
    encodeLine path v ts = path ++ " " ++ intStr v ++ " " ++ natStr ts ++ "\n" ∧
    splitSpacesStr (encodeLine path v ts) = [path, intStr v, natStr ts ++ "\n"] ∧
    pyInt (intStr v) = some v ∧
    '.' ∉ (intStr v).toList ∧
    ∃ l, (encodeLine path v ts).toList = l ++ ['\n'] := by
  have hlastpart : ' ' ∉ (natStr ts).toList ++ ['\n'] := by
    intro h
    rcases List.mem_append.mp h with h | h
    · exact no_space_natStr ts h
    · simp at h
  refine ⟨rfl, ?_, pyInt_intStr v, no_dot_intStr v, ?_⟩
  · unfold splitSpacesStr
    rw [encodeLine_toList, splitSpaces_append_space _ _ hpath,
      splitSpaces_append_space _ _ (no_space_intStr v),
      splitSpaces_no_space _ hlastpart]
    simp only [List.map]
    rw [string_mk_toList, string_mk_toList, string_mk_toList_newline]
  · refine ⟨path.toList ++ ' ' :: ((intStr v).toList ++ ' ' :: (natStr ts).toList), ?_⟩
    rw [encodeLine_toList]
    simp

theorem claim8_encode_roundtrip_witness :
    (' ' ∉ ("redis.h:1.used_memory" : String).toList) ∧
    splitSpacesStr (encodeLine "redis.h:1.used_memory" (-5) 7) =
      ["redis.h:1.used_memory", intStr (-5), natStr 7 ++ "\n"] :=
  ⟨by decide,
    (claim8_encode_roundtrip "redis.h:1.used_memory" (-5) 7 (by decide)).2.1⟩

/-- C9: the fixed table maps `mem_fragmentation_ratio` to the scaled
coercion — parse the text as a float, multiply by 100 in binary64,
truncate toward zero — and on the raw string `"0.87"` it yields the
integer 87. -/
theorem claim9_scaled_ratio_coercion :
    stats_keys.lookup "mem_fragmentation_ratio" = some scaledRatioCoerce ∧
    (∀ s v, pyFloat s = some v →
      scaledRatioCoerce s = some (if v.1 then
        -(fracTrunc (f64roundPos ⟨v.2.num * 100, v.2.den⟩) : Int)
      else (fracTrunc (f64roundPos ⟨v.2.num * 100, v.2.den⟩) : Int))) ∧
    scaledRatioCoerce "0.87" = some 87 := by
  refine ⟨rfl, ?_, by decide⟩
  intro s v h
  unfold scaledRatioCoerce
  rw [h]
  rfl

/-- C10: a sample's timestamp is an independent clock read made at the
moment that sample is encoded — in both branches the j-th sample of a
pass carries `clock (n + j)` — so under a moving clock two samples of
one tick carry different timestamps. -/
theorem claim10_per_sample_timestamps (clock : Nat → Nat) (n la lb : Nat) :
    runLists (fun k => if k = "a" then .ok la else .ok lb) ["a", "b"]
        (fun _ => true) clock "B." n =
      .ok ([Ev.sent (encodeLine "B.a" (la : Int) (clock n)),
            Ev.sent (encodeLine "B.b" (lb : Int) (clock (n + 1)))], n + 2, false) ∧
    runStats [("connected_clients", "1"), ("blocked_clients", "2")] stats_keys
        (fun _ => true) clock "B." n =
      .ok ([Ev.sent (encodeLine "B.connected_clients" 1 (clock n)),
            Ev.sent (encodeLine "B.blocked_clients" 2 (clock (n + 1)))], n + 2, false) ∧
    ∃ c : Nat → Nat, c n ≠ c (n + 1) := by
  refine ⟨rfl, rfl, ⟨fun i => i, ?_⟩⟩
  intro h
  have h2 : n = n + 1 := h
  omega

end RG
